import Mathlib

/-!
# Verified model of the quota ledger engine of `app.py` (Pian Yi Catering)

Shallow embedding of the persistent state (tables `customers` and
`transactions`) and of the engine operations of `src/app.py`:
`update_quota`, `add_customer`, `update_customer`, `delete_customer`,
`delete_transaction`, `edit_transaction`, `get_balance_at_timestamp`,
together with the handler-level flows that invoke them (`edit_dialog`,
`delete_dialog`, the Redeem / Top Up / Refund / Undo button handlers).

SQL rows become list elements; `UPDATE ... WHERE id = x` becomes a `List.map`
that rewrites the matching elements; `DELETE ... WHERE` becomes a
`List.filter`; `INSERT` appends a row with the next serial id; the
`COALESCE(SUM(..), 0)` aggregate becomes a fold.  Effective timestamps are
modelled as integers (only their ordering matters to the engine).  A mutating
call returns `Option DB`: `none` models both an early `st.error` return
(rejection with no store access) and an aborted session (e.g. an `INSERT`
that violates the `REFERENCES customers(id)` foreign-key constraint rolls
the whole session back before `commit`).
-/

namespace PianYi

/-- A row of the `customers` table: `id SERIAL PRIMARY KEY, name, phone,
quota_balance INTEGER DEFAULT 0` (`created_at` is never read by the engine
and is omitted). -/
structure Customer where
  id : Nat
  name : String
  phone : Option String
  quota_balance : Int
deriving DecidableEq

/-- A row of the `transactions` table: `id SERIAL PRIMARY KEY, customer_id,
change_amount, payment_amount, note, timestamp, meal_type`. -/
structure Txn where
  id : Nat
  customer_id : Nat
  change_amount : Int
  payment_amount : Int
  note : String
  timestamp : Int
  meal_type : Option String
deriving DecidableEq

/-- The persistent store: the two tables plus the serial-id counters. -/
structure DB where
  customers : List Customer
  transactions : List Txn
  next_customer_id : Nat
  next_transaction_id : Nat
deriving DecidableEq

/-- `SELECT 1 FROM customers WHERE id = cid` is non-empty; used to model the
`REFERENCES customers(id)` foreign-key check on `INSERT INTO transactions`. -/
def custExists (db : DB) (cid : Nat) : Bool :=
  db.customers.any (fun c => c.id == cid)

/-- `update_quota` (app.py 91-114): inserts one transaction row and adds
`change_amount` to the customer's `quota_balance` in one committed session.
If `customer_id` references no customer, the `INSERT` violates the foreign
key and the session aborts with no effect (`none`). -/
def update_quota (db : DB) (cid : Nat) (change pay : Int) (note : String)
    (ts : Int) (meal : Option String) : Option DB :=
  if custExists db cid then
    some { customers := db.customers.map
             (fun c => if c.id == cid then
                { c with quota_balance := c.quota_balance + change } else c),
           transactions := db.transactions ++
             [⟨db.next_transaction_id, cid, change, pay, note, ts, meal⟩],
           next_customer_id := db.next_customer_id,
           next_transaction_id := db.next_transaction_id + 1 }
  else none

/-- `add_customer` (app.py 116-123): inserts a customer row; `quota_balance`
takes its column default `0`. -/
def add_customer (db : DB) (name : String) (phone : Option String) : DB :=
  { db with customers := db.customers ++ [⟨db.next_customer_id, name, phone, 0⟩],
            next_customer_id := db.next_customer_id + 1 }

/-- `update_customer` (app.py 125-132): `UPDATE customers SET name, phone
WHERE id = cid`. -/
def update_customer (db : DB) (cid : Nat) (name : String)
    (phone : Option String) : DB :=
  { db with
      customers := db.customers.map (fun c =>
        if c.id == cid then { c with name := name, phone := phone } else c) }

/-- `delete_customer` (app.py 134-140): deletes the customer's transactions,
then the customer row, in one session. -/
def delete_customer (db : DB) (cid : Nat) : DB :=
  { db with transactions := db.transactions.filter (fun t => !(t.customer_id == cid)),
            customers := db.customers.filter (fun c => !(c.id == cid)) }

/-- `delete_transaction` (app.py 274-291): subtracts `original_change` from
the customer's balance and deletes the transaction row, in one session. -/
def delete_transaction (db : DB) (tid cid : Nat) (original_change : Int) : DB :=
  { db with
      customers := db.customers.map (fun c =>
        if c.id == cid then { c with quota_balance := c.quota_balance - original_change }
        else c),
      transactions := db.transactions.filter (fun t => !(t.id == tid)) }

/-- `edit_transaction` (app.py 293-328): overwrites the mutable fields of the
transaction row, and when `diff = new_change - old_change` is non-zero adds
`diff` to the customer's balance, in one session. -/
def edit_transaction (db : DB) (tid cid : Nat) (old_change new_change new_pay : Int)
    (new_note : String) (new_ts : Int) (new_meal : Option String) : DB :=
  { db with
    transactions := db.transactions.map
      (fun t => if t.id == tid then
         { t with change_amount := new_change, payment_amount := new_pay,
                  note := new_note, timestamp := new_ts, meal_type := new_meal }
       else t),
    customers :=
      if new_change - old_change == 0 then db.customers
      else db.customers.map
        (fun c => if c.id == cid then
           { c with quota_balance := c.quota_balance + (new_change - old_change) }
         else c) }

/-- `get_balance_at_timestamp` (app.py 330-338):
`SELECT COALESCE(SUM(change_amount), 0) FROM transactions WHERE
customer_id = :cid AND timestamp <= :ts`. -/
def get_balance_at_timestamp (db : DB) (cid : Nat) (ts : Int) : Int :=
  (db.transactions.filter
      (fun t => t.customer_id == cid && decide (t.timestamp ≤ ts))).foldl
    (fun acc t => acc + t.change_amount) 0

/-- `edit_dialog`'s Update handler (app.py 184-216), applied to a row `tx`
fetched from the store: looks up the owning customer; if found and the
resulting balance `current + (new_change - old_change)` would be negative,
errors out before any store access; otherwise calls `edit_transaction`.
When the customer lookup comes back empty the balance check is skipped and
`edit_transaction` is still called (faithful to the `if not
customer_row.empty` guard in the source). -/
def edit_dialog (db : DB) (tx : Txn) (new_change new_pay : Int)
    (new_note : String) (new_ts : Int) (new_meal : Option String) : Option DB :=
  match db.customers.find? (fun c => c.id == tx.customer_id) with
  | some c =>
      if c.quota_balance + (new_change - tx.change_amount) < 0 then none
      else some (edit_transaction db tx.id tx.customer_id tx.change_amount
                   new_change new_pay new_note new_ts new_meal)
  | none => some (edit_transaction db tx.id tx.customer_id tx.change_amount
                   new_change new_pay new_note new_ts new_meal)

/-- `delete_dialog`'s confirmation handler (app.py 218-246): when the row's
`change_amount` is positive and deleting it would leave the current balance
negative, errors out; otherwise calls `delete_transaction`. -/
def delete_dialog (db : DB) (tx : Txn) : Option DB :=
  if tx.change_amount > 0 then
    match db.customers.find? (fun c => c.id == tx.customer_id) with
    | some c =>
        if c.quota_balance - tx.change_amount < 0 then none
        else some (delete_transaction db tx.id tx.customer_id tx.change_amount)
    | none => some (delete_transaction db tx.id tx.customer_id tx.change_amount)
  else some (delete_transaction db tx.id tx.customer_id tx.change_amount)

/-- The "Redeem 1 Portion" handler (app.py 391-409): checks the balance at
the effective timestamp and, when it is strictly positive, records a
`-1` change with zero payment and the chosen meal type. -/
def redeem_meal (db : DB) (cid : Nat) (ts : Int) (meal : String) : Option DB :=
  if get_balance_at_timestamp db cid ts > 0 then
    update_quota db cid (-1) 0 "Redemption" ts (some meal)
  else none

/-- The "Undo Last Redemption" handler (app.py 412-419): records a
compensating `+1` entry with zero payment. -/
def undo_last_redemption (db : DB) (cid : Nat) (ts : Int) : Option DB :=
  update_quota db cid 1 0 "Undo Redemption" ts none

/-- The Refund form handler (app.py 510-528), applied to the selected
customer row `c`.  The two number inputs have `min_value=0`, so portions and
amount are naturals; both zero is rejected, as is refunding more portions
than the customer's balance; otherwise the change and payment are logged as
negative values. -/
def refund_submit (db : DB) (c : Customer) (portions amount : Nat)
    (reason : String) (ts : Int) : Option DB :=
  if portions ≤ 0 ∧ amount ≤ 0 then none
  else if (portions : Int) > c.quota_balance then none
  else update_quota db c.id (-(portions : Int)) (-(amount : Int))
         ("Refund: " ++ reason) ts none

/-- The "Confirm Purchase" handler of the Top Up page (app.py 475-481):
`qty` portions at `unit_price` each (both naturals from the package table
and the non-negative price input). -/
def topup_confirm (db : DB) (cid : Nat) (qty unit_price : Nat)
    (package : String) (ts : Int) : Option DB :=
  update_quota db cid (qty : Int) ((qty * unit_price : Nat) : Int)
    ("Top Up: " ++ package) ts none

/-- One user-level operation of the app, with the inputs the widgets
collect for it. -/
inductive Op where
  | topUp (cid : Nat) (qty unit_price : Nat) (package : String) (ts : Int)
  | redeem (cid : Nat) (ts : Int) (meal : String)
  | refund (cid : Nat) (portions amount : Nat) (reason : String) (ts : Int)
  | undo (cid : Nat) (ts : Int)
  | edit (tid : Nat) (new_change new_pay : Int) (note : String) (ts : Int)
      (meal : Option String)
  | delete (tid : Nat)
  | addCust (name : String) (phone : Option String)
  | updateCust (cid : Nat) (name : String) (phone : Option String)
  | deleteCust (cid : Nat)
deriving DecidableEq

/-- Executes one operation the way the app wires it up: the edit and delete
dialogs receive an actual row of the transaction table (`tx_row` in the
source comes from the rendered query results), the refund form receives an
actual customer row, and the customer forms require a non-empty name.
`none` means the operation was rejected (or aborted) and the store is
unchanged. -/
def apply_op (db : DB) (op : Op) : Option DB :=
  match op with
  | .topUp cid qty price pkg ts => topup_confirm db cid qty price pkg ts
  | .redeem cid ts meal => redeem_meal db cid ts meal
  | .refund cid p a reason ts =>
      match db.customers.find? (fun c => c.id == cid) with
      | some c => refund_submit db c p a reason ts
      | none => none
  | .undo cid ts => undo_last_redemption db cid ts
  | .edit tid nc np note ts meal =>
      match db.transactions.find? (fun t => t.id == tid) with
      | some tx => edit_dialog db tx nc np note ts meal
      | none => none
  | .delete tid =>
      match db.transactions.find? (fun t => t.id == tid) with
      | some tx => delete_dialog db tx
      | none => none
  | .addCust name phone => if name = "" then none else some (add_customer db name phone)
  | .updateCust cid name phone =>
      if name = "" then none else some (update_customer db cid name phone)
  | .deleteCust cid => some (delete_customer db cid)

/-- Fresh store: both tables empty, serial counters at 1. -/
def initDB : DB := ⟨[], [], 1, 1⟩

/-- Runs a list of operations, succeeding only if every one is accepted. -/
def run (db : DB) (ops : List Op) : Option DB :=
  match ops with
  | [] => some db
  | op :: rest =>
      match apply_op db op with
      | some db' => run db' rest
      | none => none

/-- States reachable from the fresh store by accepted operations. -/
inductive Reachable : DB → Prop where
  | init : Reachable initDB
  | step {db db' : DB} (op : Op) : Reachable db → apply_op db op = some db' →
      Reachable db'

/-- Sum of `change_amount` over the rows of `l` referencing customer `cid`. -/
def sumFor (l : List Txn) (cid : Nat) : Int :=
  ((l.filter (fun t => t.customer_id == cid)).map (fun t => t.change_amount)).sum

/-- Every transaction row references an existing customer (the foreign-key
constraint `customer_id INTEGER REFERENCES customers(id)`). -/
def FKok (db : DB) : Prop :=
  ∀ t ∈ db.transactions, ∃ c ∈ db.customers, c.id = t.customer_id

/-- Structural well-formedness maintained by the store: primary keys are
unique, serial counters are fresh, and the foreign key holds. -/
def WF (db : DB) : Prop :=
  (db.customers.map (fun c => c.id)).Nodup ∧
  (db.transactions.map (fun t => t.id)).Nodup ∧
  (∀ c ∈ db.customers, c.id < db.next_customer_id) ∧
  (∀ t ∈ db.transactions, t.id < db.next_transaction_id) ∧
  FKok db

/-- The ledger invariant: well-formed, and every customer's cached balance
is the sum of the `change_amount` of their entries. -/
def Inv (db : DB) : Prop :=
  WF db ∧ ∀ c ∈ db.customers, c.quota_balance = sumFor db.transactions c.id

end PianYi

namespace PianYi

/-! ## Aggregation lemmas for `sumFor` and the historical balance -/

theorem sumFor_nil (cid : Nat) : sumFor [] cid = 0 := rfl

theorem sumFor_cons (a : Txn) (l : List Txn) (cid : Nat) :
    sumFor (a :: l) cid =
      (if a.customer_id == cid then a.change_amount else 0) + sumFor l cid := by
  by_cases h : a.customer_id = cid <;>
    simp [sumFor, List.filter_cons, h]

theorem sumFor_append_single (l : List Txn) (t : Txn) (cid : Nat) :
    sumFor (l ++ [t]) cid =
      sumFor l cid + (if t.customer_id == cid then t.change_amount else 0) := by
  induction l with
  | nil => simp [sumFor_cons, sumFor_nil]
  | cons a l ih => simp only [List.cons_append, sumFor_cons, ih]; ring

theorem sumFor_eq_zero_of_absent (l : List Txn) (cid : Nat)
    (h : ∀ t ∈ l, t.customer_id ≠ cid) : sumFor l cid = 0 := by
  induction l with
  | nil => rfl
  | cons a l ih =>
      have ha : a.customer_id ≠ cid := h a (List.mem_cons_self a l)
      have hb : (a.customer_id == cid) = false := beq_eq_false_iff_ne.mpr ha
      rw [sumFor_cons, hb, ih fun t ht => h t (List.mem_cons_of_mem a ht)]
      simp

theorem sumFor_filter_other (l : List Txn) (cid cid0 : Nat) (h : cid ≠ cid0) :
    sumFor (l.filter (fun t => !(t.customer_id == cid0))) cid = sumFor l cid := by
  induction l with
  | nil => rfl
  | cons a l ih =>
      by_cases hc : a.customer_id = cid0
      · simp only [List.filter_cons, hc, sumFor_cons, ih, beq_self_eq_true,
          Bool.not_true, Bool.false_eq_true, if_false, beq_iff_eq]
        rw [if_neg (fun hx => h hx.symm)]
        simp [ih]
      · simp [List.filter_cons, hc, sumFor_cons, ih]

theorem foldl_add_change (l : List Txn) (a : Int) :
    l.foldl (fun acc t => acc + t.change_amount) a =
      a + (l.map (fun t => t.change_amount)).sum := by
  induction l generalizing a with
  | nil => simp
  | cons t l ih => simp [List.foldl_cons, ih]; ring

theorem get_balance_eq_sum (db : DB) (cid : Nat) (ts : Int) :
    get_balance_at_timestamp db cid ts =
      ((db.transactions.filter
          (fun t => t.customer_id == cid && decide (t.timestamp ≤ ts))).map
        (fun t => t.change_amount)).sum := by
  rw [get_balance_at_timestamp, foldl_add_change]; ring

theorem filter_ts_of_mono (l : List Txn) (cid : Nat) (ts : Int)
    (h : ∀ t ∈ l, t.customer_id = cid → t.timestamp ≤ ts) :
    l.filter (fun t => t.customer_id == cid && decide (t.timestamp ≤ ts)) =
      l.filter (fun t => t.customer_id == cid) := by
  induction l with
  | nil => rfl
  | cons a l ih =>
      have ih' := ih fun t ht => h t (List.mem_cons_of_mem a ht)
      by_cases hc : a.customer_id = cid
      · have hts : a.timestamp ≤ ts := h a (List.mem_cons_self a l) hc
        simp [List.filter_cons, hc, hts, ih']
      · simp [List.filter_cons, hc, ih']

theorem get_balance_eq_sumFor_of_mono (db : DB) (cid : Nat) (ts : Int)
    (h : ∀ t ∈ db.transactions, t.customer_id = cid → t.timestamp ≤ ts) :
    get_balance_at_timestamp db cid ts = sumFor db.transactions cid := by
  rw [get_balance_eq_sum, filter_ts_of_mono db.transactions cid ts h, sumFor]

end PianYi

namespace PianYi

/-! ## Single-row updates under unique primary keys -/

theorem map_eq_self_of_eq {α : Type} (l : List α) (f : α → α)
    (h : ∀ x ∈ l, f x = x) : l.map f = l := by
  induction l with
  | nil => rfl
  | cons a l ih =>
      rw [List.map_cons, h a (List.mem_cons_self a l),
        ih fun x hx => h x (List.mem_cons_of_mem a hx)]

theorem map_key_of_preserve {α : Type} (key : α → Nat) (l : List α) (f : α → α)
    (h : ∀ x, key (f x) = key x) : (l.map f).map key = l.map key := by
  rw [List.map_map]; exact List.map_congr_left fun a _ => h a

theorem find?_key_unique {α : Type} (key : α → Nat) (l : List α) (a : α)
    (hnd : (l.map key).Nodup) (ha : a ∈ l) :
    l.find? (fun x => key x == key a) = some a := by
  induction l with
  | nil => cases ha
  | cons b l ih =>
      rw [List.map_cons, List.nodup_cons] at hnd
      rcases List.mem_cons.mp ha with rfl | ha'
      · simp [List.find?_cons]
      · have hb : (key b == key a) = false := by
          refine beq_eq_false_iff_ne.mpr fun he => hnd.1 ?_
          rw [he]; exact List.mem_map_of_mem key ha'
        rw [List.find?_cons, hb]
        exact ih hnd.2 ha'

theorem sumFor_edit (l : List Txn) (tx : Txn) (nc np : Int) (note : String)
    (ts : Int) (meal : Option String) (cid : Nat)
    (hnd : (l.map (fun t => t.id)).Nodup) (hmem : tx ∈ l) :
    sumFor (l.map (fun t =>
        if t.id == tx.id then
          { t with change_amount := nc, payment_amount := np, note := note,
                   timestamp := ts, meal_type := meal }
        else t)) cid
      = sumFor l cid + (if tx.customer_id == cid then nc - tx.change_amount else 0) := by
  induction l with
  | nil => cases hmem
  | cons a l ih =>
      rw [List.map_cons, List.nodup_cons] at hnd
      rcases List.mem_cons.mp hmem with rfl | hmem'
      · have htail : l.map (fun t =>
            if t.id == tx.id then
              { t with change_amount := nc, payment_amount := np, note := note,
                       timestamp := ts, meal_type := meal }
            else t) = l := by
          refine map_eq_self_of_eq _ _ fun t ht => ?_
          have hne : (t.id == tx.id) = false :=
            beq_eq_false_iff_ne.mpr fun he =>
              hnd.1 (he ▸ List.mem_map_of_mem (fun t => t.id) ht)
          simp [hne]
        rw [List.map_cons, htail]
        simp only [beq_self_eq_true, if_true]
        rw [sumFor_cons, sumFor_cons]
        by_cases hc : tx.customer_id = cid
        · simp [hc]
          ring
        · simp [hc]
      · have ha : (a.id == tx.id) = false :=
          beq_eq_false_iff_ne.mpr fun he =>
            hnd.1 (he ▸ List.mem_map_of_mem (fun t => t.id) hmem')
        rw [List.map_cons, ha]
        simp only [Bool.false_eq_true, if_false]
        rw [sumFor_cons, sumFor_cons, ih hnd.2 hmem']
        ring

theorem sumFor_erase (l : List Txn) (tx : Txn) (cid : Nat)
    (hnd : (l.map (fun t => t.id)).Nodup) (hmem : tx ∈ l) :
    sumFor (l.filter (fun t => !(t.id == tx.id))) cid
      = sumFor l cid - (if tx.customer_id == cid then tx.change_amount else 0) := by
  induction l with
  | nil => cases hmem
  | cons a l ih =>
      rw [List.map_cons, List.nodup_cons] at hnd
      rcases List.mem_cons.mp hmem with rfl | hmem'
      · have htail : l.filter (fun t => !(t.id == tx.id)) = l := by
          refine List.filter_eq_self.mpr fun t ht => ?_
          have hne : (t.id == tx.id) = false :=
            beq_eq_false_iff_ne.mpr fun he =>
              hnd.1 (he ▸ List.mem_map_of_mem (fun t => t.id) ht)
          simp [hne]
        rw [List.filter_cons]
        simp only [beq_self_eq_true, Bool.not_true, Bool.false_eq_true, if_false]
        rw [htail, sumFor_cons]
        by_cases hc : tx.customer_id = cid
        · simp [hc]
        · simp [hc]
      · have ha : (a.id == tx.id) = false :=
          beq_eq_false_iff_ne.mpr fun he =>
            hnd.1 (he ▸ List.mem_map_of_mem (fun t => t.id) hmem')
        rw [List.filter_cons]
        simp only [ha, Bool.not_false, if_true]
        rw [sumFor_cons, sumFor_cons, ih hnd.2 hmem']
        ring

end PianYi

namespace PianYi

/-! ## Invariant preservation, operation by operation -/

theorem nodup_append_single {α : Type} (l : List α) (a : α) (hnd : l.Nodup)
    (ha : a ∉ l) : (l ++ [a]).Nodup := by
  simp [List.nodup_append, hnd, ha]

theorem custExists_elim (db : DB) (cid : Nat) (h : custExists db cid = true) :
    ∃ c ∈ db.customers, c.id = cid := by
  obtain ⟨c, hc, hid⟩ := List.any_eq_true.mp h
  exact ⟨c, hc, beq_iff_eq.mp hid⟩

theorem update_quota_inv (db : DB) (cid : Nat) (change pay : Int) (note : String)
    (ts : Int) (meal : Option String) (db' : DB) (hinv : Inv db)
    (h : update_quota db cid change pay note ts meal = some db') : Inv db' := by
  obtain ⟨⟨hndC, hndT, hubC, hubT, hfk⟩, hbal⟩ := hinv
  rw [update_quota] at h
  by_cases hex : custExists db cid = true
  · rw [if_pos hex] at h
    injection h with h
    subst h
    have hids : (db.customers.map (fun c =>
        if c.id == cid then { c with quota_balance := c.quota_balance + change }
        else c)).map (fun c => c.id) = db.customers.map (fun c => c.id) :=
      map_key_of_preserve _ _ _ (fun c => by by_cases hx : c.id = cid <;> simp [hx])
    refine ⟨⟨?_, ?_, ?_, ?_, ?_⟩, ?_⟩
    · rw [hids]; exact hndC
    · rw [List.map_append]
      refine nodup_append_single _ _ hndT ?_
      intro hmem
      obtain ⟨t, ht, hid⟩ := List.mem_map.mp hmem
      exact absurd hid (Nat.ne_of_lt (hubT t ht))
    · intro c' hc'
      obtain ⟨c, hc, rfl⟩ := List.mem_map.mp hc'
      have : (if c.id == cid then
          { c with quota_balance := c.quota_balance + change } else c).id = c.id := by
        by_cases hx : c.id = cid <;> simp [hx]
      rw [this]; exact hubC c hc
    · intro t ht
      rcases List.mem_append.mp ht with ht' | ht'
      · exact Nat.lt_succ_of_lt (hubT t ht')
      · rw [List.mem_singleton] at ht'
        subst ht'
        exact Nat.lt_succ_self _
    · intro t ht
      rcases List.mem_append.mp ht with ht' | ht'
      · obtain ⟨c, hc, hcid⟩ := hfk t ht'
        refine ⟨if c.id == cid then
            { c with quota_balance := c.quota_balance + change } else c,
          List.mem_map_of_mem _ hc, ?_⟩
        have hid : (if c.id == cid then
            { c with quota_balance := c.quota_balance + change } else c).id = c.id := by
          by_cases hx : c.id = cid <;> simp [hx]
        rw [hid]; exact hcid
      · rw [List.mem_singleton] at ht'
        subst ht'
        obtain ⟨c, hc, hcid⟩ := custExists_elim db cid hex
        refine ⟨if c.id == cid then
            { c with quota_balance := c.quota_balance + change } else c,
          List.mem_map_of_mem _ hc, ?_⟩
        by_cases hx : c.id = cid <;> simp [hx, hcid]
    · intro c' hc'
      obtain ⟨c, hc, rfl⟩ := List.mem_map.mp hc'
      by_cases hx : c.id = cid
      · simp only [hx, beq_self_eq_true, if_true]
        rw [sumFor_append_single]
        simp only [hx, beq_self_eq_true, if_true]
        rw [hbal c hc, hx]
      · simp only [beq_iff_eq, hx, if_false]
        rw [sumFor_append_single]
        have : (cid == c.id) = false := beq_eq_false_iff_ne.mpr fun he => hx he.symm
        rw [this]
        simp [hbal c hc]
  · rw [if_neg hex] at h
    cases h

theorem add_customer_inv (db : DB) (name : String) (phone : Option String)
    (hinv : Inv db) : Inv (add_customer db name phone) := by
  obtain ⟨⟨hndC, hndT, hubC, hubT, hfk⟩, hbal⟩ := hinv
  refine ⟨⟨?_, hndT, ?_, hubT, ?_⟩, ?_⟩
  · rw [add_customer, List.map_append]
    refine nodup_append_single _ _ hndC ?_
    intro hmem
    obtain ⟨c, hc, hid⟩ := List.mem_map.mp hmem
    exact absurd hid (Nat.ne_of_lt (hubC c hc))
  · intro c hc
    rcases List.mem_append.mp hc with hc' | hc'
    · exact Nat.lt_succ_of_lt (hubC c hc')
    · rw [List.mem_singleton] at hc'
      subst hc'
      exact Nat.lt_succ_self _
  · intro t ht
    obtain ⟨c, hc, hcid⟩ := hfk t ht
    exact ⟨c, List.mem_append_left _ hc, hcid⟩
  · intro c hc
    rcases List.mem_append.mp hc with hc' | hc'
    · exact hbal c hc'
    · rw [List.mem_singleton] at hc'
      subst hc'
      refine (sumFor_eq_zero_of_absent _ _ fun t ht => ?_).symm
      obtain ⟨c, hc, hcid⟩ := hfk t ht
      rw [← hcid]
      exact Nat.ne_of_lt (hubC c hc)

theorem update_customer_inv (db : DB) (cid : Nat) (name : String)
    (phone : Option String) (hinv : Inv db) : Inv (update_customer db cid name phone) := by
  obtain ⟨⟨hndC, hndT, hubC, hubT, hfk⟩, hbal⟩ := hinv
  have hids : ((update_customer db cid name phone).customers).map (fun c => c.id)
      = db.customers.map (fun c => c.id) :=
    map_key_of_preserve _ _ _ (fun c => by by_cases hx : c.id = cid <;> simp [hx])
  refine ⟨⟨?_, hndT, ?_, hubT, ?_⟩, ?_⟩
  · rw [hids]; exact hndC
  · intro c' hc'
    obtain ⟨c, hc, rfl⟩ := List.mem_map.mp hc'
    have : (if c.id == cid then { c with name := name, phone := phone } else c).id
        = c.id := by by_cases hx : c.id = cid <;> simp [hx]
    rw [this]; exact hubC c hc
  · intro t ht
    obtain ⟨c, hc, hcid⟩ := hfk t ht
    refine ⟨if c.id == cid then { c with name := name, phone := phone } else c,
      List.mem_map_of_mem _ hc, ?_⟩
    have hid : (if c.id == cid then
        { c with name := name, phone := phone } else c).id = c.id := by
      by_cases hx : c.id = cid <;> simp [hx]
    rw [hid]; exact hcid
  · intro c' hc'
    obtain ⟨c, hc, rfl⟩ := List.mem_map.mp hc'
    by_cases hx : c.id = cid <;> simp [update_customer, hx, hbal c hc]

theorem delete_customer_inv (db : DB) (cid : Nat) (hinv : Inv db) :
    Inv (delete_customer db cid) := by
  obtain ⟨⟨hndC, hndT, hubC, hubT, hfk⟩, hbal⟩ := hinv
  refine ⟨⟨?_, ?_, ?_, ?_, ?_⟩, ?_⟩
  · exact hndC.sublist (List.Sublist.map _ (List.filter_sublist _))
  · exact hndT.sublist (List.Sublist.map _ (List.filter_sublist _))
  · intro c hc
    exact hubC c (List.mem_of_mem_filter hc)
  · intro t ht
    exact hubT t (List.mem_of_mem_filter ht)
  · intro t ht
    have htl := List.mem_of_mem_filter ht
    have htp := List.of_mem_filter ht
    obtain ⟨c, hc, hcid⟩ := hfk t htl
    refine ⟨c, List.mem_filter.mpr ⟨hc, ?_⟩, hcid⟩
    simp only [Bool.not_eq_true', beq_eq_false_iff_ne] at htp ⊢
    rw [hcid]; exact htp
  · intro c hc
    have hcl := List.mem_of_mem_filter hc
    have hcp := List.of_mem_filter hc
    simp only [Bool.not_eq_true', beq_eq_false_iff_ne] at hcp
    rw [delete_customer]
    exact (hbal c hcl).trans (sumFor_filter_other _ _ _ hcp).symm

end PianYi

namespace PianYi

theorem edit_transaction_inv (db : DB) (tx : Txn) (nc np : Int) (note : String)
    (ts : Int) (meal : Option String) (hinv : Inv db) (htx : tx ∈ db.transactions) :
    Inv (edit_transaction db tx.id tx.customer_id tx.change_amount nc np note ts meal) := by
  obtain ⟨⟨hndC, hndT, hubC, hubT, hfk⟩, hbal⟩ := hinv
  have hsum : ∀ cid, sumFor (db.transactions.map (fun t =>
      if t.id == tx.id then
        { t with change_amount := nc, payment_amount := np, note := note,
                 timestamp := ts, meal_type := meal }
      else t)) cid
        = sumFor db.transactions cid
          + (if tx.customer_id == cid then nc - tx.change_amount else 0) :=
    fun cid => sumFor_edit db.transactions tx nc np note ts meal cid hndT htx
  have htid : ∀ t : Txn, ((if t.id == tx.id then
      { t with change_amount := nc, payment_amount := np, note := note,
               timestamp := ts, meal_type := meal }
    else t) : Txn).id = t.id := by
    intro t; by_cases hx : t.id = tx.id <;> simp [hx]
  have htcust : ∀ t : Txn, ((if t.id == tx.id then
      { t with change_amount := nc, payment_amount := np, note := note,
               timestamp := ts, meal_type := meal }
    else t) : Txn).customer_id = t.customer_id := by
    intro t; by_cases hx : t.id = tx.id <;> simp [hx]
  rw [edit_transaction]
  by_cases hd : nc - tx.change_amount = 0
  · rw [if_pos (beq_iff_eq.mpr hd)]
    refine ⟨⟨hndC, ?_, hubC, ?_, ?_⟩, ?_⟩
    · rw [map_key_of_preserve _ _ _ htid]; exact hndT
    · intro t ht
      obtain ⟨t0, ht0, rfl⟩ := List.mem_map.mp ht
      rw [htid t0]; exact hubT t0 ht0
    · intro t ht
      obtain ⟨t0, ht0, rfl⟩ := List.mem_map.mp ht
      rw [htcust t0]; exact hfk t0 ht0
    · intro c hc
      rw [hsum c.id, hd]
      simp [hbal c hc]
  · rw [if_neg (by simpa using hd)]
    have hcid : ∀ c : Customer, ((if c.id == tx.customer_id then
        { c with quota_balance := c.quota_balance + (nc - tx.change_amount) }
      else c) : Customer).id = c.id := by
      intro c; by_cases hx : c.id = tx.customer_id <;> simp [hx]
    refine ⟨⟨?_, ?_, ?_, ?_, ?_⟩, ?_⟩
    · rw [map_key_of_preserve _ _ _ hcid]; exact hndC
    · rw [map_key_of_preserve _ _ _ htid]; exact hndT
    · intro c hc
      obtain ⟨c0, hc0, rfl⟩ := List.mem_map.mp hc
      rw [hcid c0]; exact hubC c0 hc0
    · intro t ht
      obtain ⟨t0, ht0, rfl⟩ := List.mem_map.mp ht
      rw [htid t0]; exact hubT t0 ht0
    · intro t ht
      obtain ⟨t0, ht0, rfl⟩ := List.mem_map.mp ht
      rw [htcust t0]
      obtain ⟨c, hc, hcid0⟩ := hfk t0 ht0
      refine ⟨_, List.mem_map_of_mem _ hc, ?_⟩
      rw [hcid c]; exact hcid0
    · intro c hc
      obtain ⟨c0, hc0, rfl⟩ := List.mem_map.mp hc
      rw [hcid c0, hsum c0.id]
      by_cases hx : c0.id = tx.customer_id
      · have hb : (tx.customer_id == c0.id) = true := beq_iff_eq.mpr hx.symm
        rw [hb]
        simp only [hx, beq_self_eq_true, if_true]
        rw [hbal c0 hc0, hx]
      · have hb : (tx.customer_id == c0.id) = false :=
          beq_eq_false_iff_ne.mpr fun he => hx he.symm
        rw [hb]
        simp only [beq_iff_eq, hx, if_false]
        simp [hbal c0 hc0]

theorem delete_transaction_inv (db : DB) (tx : Txn) (hinv : Inv db)
    (htx : tx ∈ db.transactions) :
    Inv (delete_transaction db tx.id tx.customer_id tx.change_amount) := by
  obtain ⟨⟨hndC, hndT, hubC, hubT, hfk⟩, hbal⟩ := hinv
  have hcid : ∀ c : Customer, ((if c.id == tx.customer_id then
      { c with quota_balance := c.quota_balance - tx.change_amount }
    else c) : Customer).id = c.id := by
    intro c; by_cases hx : c.id = tx.customer_id <;> simp [hx]
  rw [delete_transaction]
  refine ⟨⟨?_, ?_, ?_, ?_, ?_⟩, ?_⟩
  · rw [map_key_of_preserve _ _ _ hcid]; exact hndC
  · exact hndT.sublist (List.Sublist.map _ (List.filter_sublist _))
  · intro c hc
    obtain ⟨c0, hc0, rfl⟩ := List.mem_map.mp hc
    rw [hcid c0]; exact hubC c0 hc0
  · intro t ht
    exact hubT t (List.mem_of_mem_filter ht)
  · intro t ht
    obtain ⟨c, hc, hcid0⟩ := hfk t (List.mem_of_mem_filter ht)
    refine ⟨_, List.mem_map_of_mem _ hc, ?_⟩
    rw [hcid c]; exact hcid0
  · intro c hc
    obtain ⟨c0, hc0, rfl⟩ := List.mem_map.mp hc
    rw [hcid c0, sumFor_erase db.transactions tx c0.id hndT htx]
    by_cases hx : c0.id = tx.customer_id
    · have hb : (tx.customer_id == c0.id) = true := beq_iff_eq.mpr hx.symm
      rw [hb]
      simp only [hx, beq_self_eq_true, if_true]
      rw [hbal c0 hc0, hx]
    · have hb : (tx.customer_id == c0.id) = false :=
        beq_eq_false_iff_ne.mpr fun he => hx he.symm
      rw [hb]
      simp only [beq_iff_eq, hx, if_false]
      simp [hbal c0 hc0]

end PianYi

namespace PianYi

theorem apply_op_inv (db db' : DB) (op : Op) (hinv : Inv db)
    (h : apply_op db op = some db') : Inv db' := by
  cases op with
  | topUp cid qty price pkg ts =>
      simp only [apply_op, topup_confirm] at h
      exact update_quota_inv db cid _ _ _ ts none db' hinv h
  | redeem cid ts meal =>
      simp only [apply_op, redeem_meal] at h
      by_cases hb : get_balance_at_timestamp db cid ts > 0
      · rw [if_pos hb] at h
        exact update_quota_inv db cid _ _ _ ts (some meal) db' hinv h
      · rw [if_neg hb] at h; cases h
  | refund cid p a reason ts =>
      simp only [apply_op] at h
      cases hfind : db.customers.find? (fun c => c.id == cid) with
      | none => rw [hfind] at h; cases h
      | some c =>
          rw [hfind] at h
          have hsub : refund_submit db c p a reason ts = some db' := h
          unfold refund_submit at hsub
          split at hsub
          · cases hsub
          · split at hsub
            · cases hsub
            · exact update_quota_inv db c.id _ _ _ ts none db' hinv hsub
  | undo cid ts =>
      simp only [apply_op, undo_last_redemption] at h
      exact update_quota_inv db cid _ _ _ ts none db' hinv h
  | edit tid nc np note ts meal =>
      simp only [apply_op] at h
      cases hfind : db.transactions.find? (fun t => t.id == tid) with
      | none => rw [hfind] at h; cases h
      | some tx =>
          rw [hfind] at h
          have htx : tx ∈ db.transactions := List.mem_of_find?_eq_some hfind
          have hdlg : edit_dialog db tx nc np note ts meal = some db' := h
          unfold edit_dialog at hdlg
          split at hdlg
          · split at hdlg
            · cases hdlg
            · injection hdlg with hdlg; subst hdlg
              exact edit_transaction_inv db tx nc np note ts meal hinv htx
          · injection hdlg with hdlg; subst hdlg
            exact edit_transaction_inv db tx nc np note ts meal hinv htx
  | delete tid =>
      simp only [apply_op] at h
      cases hfind : db.transactions.find? (fun t => t.id == tid) with
      | none => rw [hfind] at h; cases h
      | some tx =>
          rw [hfind] at h
          have htx : tx ∈ db.transactions := List.mem_of_find?_eq_some hfind
          have hdlg : delete_dialog db tx = some db' := h
          unfold delete_dialog at hdlg
          split at hdlg
          · split at hdlg
            · split at hdlg
              · cases hdlg
              · injection hdlg with hdlg; subst hdlg
                exact delete_transaction_inv db tx hinv htx
            · injection hdlg with hdlg; subst hdlg
              exact delete_transaction_inv db tx hinv htx
          · injection hdlg with hdlg; subst hdlg
            exact delete_transaction_inv db tx hinv htx
  | addCust name phone =>
      simp only [apply_op] at h
      by_cases hn : name = ""
      · rw [if_pos hn] at h; cases h
      · rw [if_neg hn] at h
        injection h with h; subst h
        exact add_customer_inv db name phone hinv
  | updateCust cid name phone =>
      simp only [apply_op] at h
      by_cases hn : name = ""
      · rw [if_pos hn] at h; cases h
      · rw [if_neg hn] at h
        injection h with h; subst h
        exact update_customer_inv db cid name phone hinv
  | deleteCust cid =>
      simp only [apply_op] at h
      injection h with h; subst h
      exact delete_customer_inv db cid hinv

theorem reachable_inv (db : DB) (h : Reachable db) : Inv db := by
  induction h with
  | init =>
      refine ⟨⟨List.nodup_nil, List.nodup_nil, ?_, ?_, ?_⟩, ?_⟩ <;>
        intro x hx <;> cases hx
  | step op hr happ ih => exact apply_op_inv _ _ op ih happ

end PianYi

namespace PianYi

/-! ## Non-negativity under non-backdated redemptions -/

/-- The side condition under which the redeem handler's historical check is
equivalent to a check of the live balance: the redemption's effective
timestamp is not earlier than any existing entry of that customer. -/
def redeemNotBackdated (db : DB) (op : Op) : Prop :=
  match op with
  | .redeem cid ts _ => ∀ t ∈ db.transactions, t.customer_id = cid → t.timestamp ≤ ts
  | _ => True

/-- Reachability by accepted operations in which no redemption is backdated
behind an existing entry of its customer. -/
inductive ReachableChrono : DB → Prop where
  | init : ReachableChrono initDB
  | step {db db' : DB} (op : Op) : ReachableChrono db → redeemNotBackdated db op →
      apply_op db op = some db' → ReachableChrono db'

theorem reachableChrono_reachable (db : DB) (h : ReachableChrono db) :
    Reachable db := by
  induction h with
  | init => exact Reachable.init
  | step op hr hok happ ih => exact Reachable.step op ih happ

theorem update_quota_dest (db : DB) (cid : Nat) (change pay : Int) (note : String)
    (ts : Int) (meal : Option String) (db' : DB)
    (h : update_quota db cid change pay note ts meal = some db') :
    db'.customers = db.customers.map (fun c =>
        if c.id == cid then { c with quota_balance := c.quota_balance + change }
        else c) ∧
      db'.transactions = db.transactions ++
        [⟨db.next_transaction_id, cid, change, pay, note, ts, meal⟩] ∧
      custExists db cid = true := by
  unfold update_quota at h
  by_cases hex : custExists db cid = true
  · rw [if_pos hex] at h
    injection h with h
    subst h
    exact ⟨rfl, rfl, hex⟩
  · rw [if_neg hex] at h
    cases h

theorem mapped_balance_nonneg (l : List Customer) (cid : Nat) (d : Int)
    (h : ∀ c ∈ l, 0 ≤ c.quota_balance)
    (hd : ∀ c ∈ l, c.id = cid → 0 ≤ c.quota_balance + d) :
    ∀ c' ∈ l.map (fun c => if c.id == cid then
        { c with quota_balance := c.quota_balance + d } else c),
      0 ≤ c'.quota_balance := by
  intro c' hc'
  obtain ⟨c, hc, rfl⟩ := List.mem_map.mp hc'
  by_cases hx : c.id = cid
  · have : (c.id == cid) = true := beq_iff_eq.mpr hx
    rw [this, if_pos rfl]
    exact hd c hc hx
  · have : (c.id == cid) = false := beq_eq_false_iff_ne.mpr hx
    rw [this]
    simp only [Bool.false_eq_true, if_false]
    exact h c hc

theorem mapped_balance_nonneg_sub (l : List Customer) (cid : Nat) (d : Int)
    (h : ∀ c ∈ l, 0 ≤ c.quota_balance)
    (hd : ∀ c ∈ l, c.id = cid → 0 ≤ c.quota_balance - d) :
    ∀ c' ∈ l.map (fun c => if c.id == cid then
        { c with quota_balance := c.quota_balance - d } else c),
      0 ≤ c'.quota_balance := by
  intro c' hc'
  obtain ⟨c, hc, rfl⟩ := List.mem_map.mp hc'
  by_cases hx : c.id = cid
  · have : (c.id == cid) = true := beq_iff_eq.mpr hx
    rw [this, if_pos rfl]
    exact hd c hc hx
  · have : (c.id == cid) = false := beq_eq_false_iff_ne.mpr hx
    rw [this]
    simp only [Bool.false_eq_true, if_false]
    exact h c hc

theorem balance_eq_of_id_eq (db : DB) (hinv : Inv db) (c c0 : Customer)
    (hc : c ∈ db.customers) (hc0 : c0 ∈ db.customers) (hid : c.id = c0.id) :
    c.quota_balance = c0.quota_balance := by
  rw [hinv.2 c hc, hinv.2 c0 hc0, hid]

end PianYi

namespace PianYi

theorem nonneg_step (db db' : DB) (op : Op) (hinv : Inv db)
    (hnn : ∀ c ∈ db.customers, 0 ≤ c.quota_balance)
    (hok : redeemNotBackdated db op)
    (h : apply_op db op = some db') : ∀ c ∈ db'.customers, 0 ≤ c.quota_balance := by
  cases op with
  | topUp cid qty price pkg ts =>
      simp only [apply_op, topup_confirm] at h
      obtain ⟨hcs, -, -⟩ := update_quota_dest db cid _ _ _ ts none db' h
      rw [hcs]
      refine mapped_balance_nonneg _ _ _ hnn ?_
      intro c hc hcid
      have h1 := hnn c hc
      have h2 : (0 : Int) ≤ (qty : Int) := Int.natCast_nonneg qty
      omega
  | redeem cid ts meal =>
      simp only [apply_op, redeem_meal] at h
      by_cases hb : get_balance_at_timestamp db cid ts > 0
      · rw [if_pos hb] at h
        obtain ⟨hcs, -, -⟩ := update_quota_dest db cid (-1) 0 "Redemption" ts (some meal) db' h
        rw [hcs]
        refine mapped_balance_nonneg _ _ _ hnn ?_
        intro c hc hcid
        have hmono : ∀ t ∈ db.transactions, t.customer_id = cid → t.timestamp ≤ ts := hok
        have hbe : get_balance_at_timestamp db cid ts = sumFor db.transactions cid :=
          get_balance_eq_sumFor_of_mono db cid ts hmono
        have hcb : c.quota_balance = sumFor db.transactions cid := by
          rw [hinv.2 c hc, hcid]
        omega
      · rw [if_neg hb] at h; cases h
  | refund cid p a reason ts =>
      simp only [apply_op] at h
      cases hfind : db.customers.find? (fun c => c.id == cid) with
      | none => rw [hfind] at h; cases h
      | some c0 =>
          rw [hfind] at h
          have hsub : refund_submit db c0 p a reason ts = some db' := h
          unfold refund_submit at hsub
          split at hsub
          · cases hsub
          · split at hsub
            · cases hsub
            · rename_i hgt
              obtain ⟨hcs, -, -⟩ :=
                update_quota_dest db c0.id (-(p : Int)) (-(a : Int)) _ ts none db' hsub
              rw [hcs]
              refine mapped_balance_nonneg _ _ _ hnn ?_
              intro c hc hcid
              have hc0mem : c0 ∈ db.customers := List.mem_of_find?_eq_some hfind
              have hc0id : c0.id = cid := by simpa using List.find?_some hfind
              have heq := balance_eq_of_id_eq db hinv c c0 hc hc0mem hcid
              omega
  | undo cid ts =>
      simp only [apply_op, undo_last_redemption] at h
      obtain ⟨hcs, -, -⟩ := update_quota_dest db cid 1 0 "Undo Redemption" ts none db' h
      rw [hcs]
      refine mapped_balance_nonneg _ _ _ hnn ?_
      intro c hc hcid
      have h1 := hnn c hc
      omega
  | edit tid nc np note ts meal =>
      simp only [apply_op] at h
      cases hfind : db.transactions.find? (fun t => t.id == tid) with
      | none => rw [hfind] at h; cases h
      | some tx =>
          rw [hfind] at h
          have htx : tx ∈ db.transactions := List.mem_of_find?_eq_some hfind
          have hdlg : edit_dialog db tx nc np note ts meal = some db' := h
          unfold edit_dialog at hdlg
          split at hdlg
          · rename_i c0 hf2
            split at hdlg
            · cases hdlg
            · rename_i hneg
              injection hdlg with hdlg
              subst hdlg
              have hcs : (edit_transaction db tx.id tx.customer_id tx.change_amount
                    nc np note ts meal).customers
                  = if nc - tx.change_amount == 0 then db.customers
                    else db.customers.map (fun c =>
                      if c.id == tx.customer_id then
                        { c with quota_balance :=
                            c.quota_balance + (nc - tx.change_amount) }
                      else c) := rfl
              rw [hcs]
              by_cases hd0 : nc - tx.change_amount = 0
              · rw [if_pos (beq_iff_eq.mpr hd0)]
                exact hnn
              · rw [if_neg (by simpa using hd0)]
                refine mapped_balance_nonneg _ _ _ hnn ?_
                intro c hc hcid
                have hc0mem : c0 ∈ db.customers := List.mem_of_find?_eq_some hf2
                have hc0id : c0.id = tx.customer_id := by simpa using List.find?_some hf2
                have heq := balance_eq_of_id_eq db hinv c c0 hc hc0mem
                  (hcid.trans hc0id.symm)
                omega
          · rename_i hf2
            exfalso
            obtain ⟨c, hc, hcid⟩ := hinv.1.2.2.2.2 tx htx
            exact List.find?_eq_none.mp hf2 c hc (beq_iff_eq.mpr hcid)
  | delete tid =>
      simp only [apply_op] at h
      cases hfind : db.transactions.find? (fun t => t.id == tid) with
      | none => rw [hfind] at h; cases h
      | some tx =>
          rw [hfind] at h
          have htx : tx ∈ db.transactions := List.mem_of_find?_eq_some hfind
          have hdlg : delete_dialog db tx = some db' := h
          unfold delete_dialog at hdlg
          have hcs : ∀ dbx : DB, dbx = delete_transaction db tx.id tx.customer_id
                tx.change_amount →
              dbx.customers = db.customers.map (fun c =>
                if c.id == tx.customer_id then
                  { c with quota_balance := c.quota_balance - tx.change_amount }
                else c) := by
            intro dbx hx; subst hx; rfl
          split at hdlg
          · rename_i hpos
            split at hdlg
            · rename_i c0 hf2
              split at hdlg
              · cases hdlg
              · rename_i hneg
                injection hdlg with hdlg
                rw [hcs db' hdlg.symm]
                refine mapped_balance_nonneg_sub _ _ _ hnn ?_
                intro c hc hcid
                have hc0mem : c0 ∈ db.customers := List.mem_of_find?_eq_some hf2
                have hc0id : c0.id = tx.customer_id := by simpa using List.find?_some hf2
                have heq := balance_eq_of_id_eq db hinv c c0 hc hc0mem
                  (hcid.trans hc0id.symm)
                omega
            · rename_i hf2
              exfalso
              obtain ⟨c, hc, hcid⟩ := hinv.1.2.2.2.2 tx htx
              exact List.find?_eq_none.mp hf2 c hc (beq_iff_eq.mpr hcid)
          · rename_i hpos
            injection hdlg with hdlg
            rw [hcs db' hdlg.symm]
            refine mapped_balance_nonneg_sub _ _ _ hnn ?_
            intro c hc hcid
            have h1 := hnn c hc
            omega
  | addCust name phone =>
      simp only [apply_op] at h
      split at h
      · cases h
      · injection h with h
        subst h
        intro c hc
        have hcs : (add_customer db name phone).customers
            = db.customers ++ [⟨db.next_customer_id, name, phone, 0⟩] := rfl
        rw [hcs] at hc
        rcases List.mem_append.mp hc with hc' | hc'
        · exact hnn c hc'
        · rw [List.mem_singleton] at hc'
          subst hc'
          exact le_refl 0
  | updateCust cid name phone =>
      simp only [apply_op] at h
      split at h
      · cases h
      · injection h with h
        subst h
        intro c' hc'
        have hcs : (update_customer db cid name phone).customers
            = db.customers.map (fun c =>
                if c.id == cid then { c with name := name, phone := phone } else c) := rfl
        rw [hcs] at hc'
        obtain ⟨c, hc, rfl⟩ := List.mem_map.mp hc'
        by_cases hx : c.id = cid
        · have hb : (c.id == cid) = true := beq_iff_eq.mpr hx
          rw [hb, if_pos rfl]
          exact hnn c hc
        · have hb : (c.id == cid) = false := beq_eq_false_iff_ne.mpr hx
          rw [hb]
          simp only [Bool.false_eq_true, if_false]
          exact hnn c hc
  | deleteCust cid =>
      simp only [apply_op] at h
      injection h with h
      subst h
      intro c hc
      exact hnn c (List.mem_of_mem_filter hc)

theorem reachableChrono_nonneg (db : DB) (h : ReachableChrono db) :
    ∀ c ∈ db.customers, 0 ≤ c.quota_balance := by
  induction h with
  | init => intro c hc; cases hc
  | step op hr hok happ ih =>
      exact nonneg_step _ _ op
        (reachable_inv _ (reachableChrono_reachable _ hr)) ih hok happ

end PianYi

namespace PianYi

/-! ## Concrete stores used as witnesses -/

theorem reachable_run (db db' : DB) (ops : List Op) (hr : Reachable db)
    (h : run db ops = some db') : Reachable db' := by
  induction ops generalizing db with
  | nil =>
      rw [run] at h
      injection h with h
      subst h
      exact hr
  | cons op rest ih =>
      rw [run] at h
      cases happ : apply_op db op with
      | none => rw [happ] at h; cases h
      | some db1 =>
          rw [happ] at h
          exact ih db1 (Reachable.step op hr happ) h

/-- Store after adding customer "Ana" and topping up 5 portions at 27000. -/
def dbW : DB :=
  ⟨[⟨1, "Ana", none, 5⟩],
   [⟨1, 1, 5, 135000, "Top Up: 5 Portions", 1, none⟩], 2, 2⟩

/-- Intermediate store after only adding customer "Ana". -/
def dbW0 : DB := ⟨[⟨1, "Ana", none, 0⟩], [], 2, 1⟩

/-- The single transaction row of `dbW`. -/
def txW : Txn := ⟨1, 1, 5, 135000, "Top Up: 5 Portions", 1, none⟩

/-- The single customer row of `dbW`. -/
def custW : Customer := ⟨1, "Ana", none, 5⟩

theorem dbW_reachable : Reachable dbW :=
  reachable_run initDB dbW
    [Op.addCust "Ana" none, Op.topUp 1 5 27000 "5 Portions" 1]
    Reachable.init (by decide)

/-! ## C1 -/

/-- C1: after every committed engine operation, as the application invokes
them (`apply_op` covers top-up, redemption, refund, undo, the edit and
delete dialogs, and the three customer operations), every customer's cached
`quota_balance` equals the sum of `change_amount` over that customer's
transaction entries. -/
theorem cache_matches_ledger (db : DB) (hr : Reachable db) :
    ∀ c ∈ db.customers, c.quota_balance = sumFor db.transactions c.id :=
  fun c hc => (reachable_inv db hr).2 c hc

theorem cache_matches_ledger_witness :
    custW.quota_balance = sumFor dbW.transactions custW.id :=
  cache_matches_ledger dbW
    (reachable_run initDB dbW
      [Op.addCust "Ana" none, Op.topUp 1 5 27000 "5 Portions" 1]
      Reachable.init (by decide))
    custW (by decide)

/-! ## C2 -/

/-- A sequence of operations every one of which is accepted by the engine:
top up 5 portions at time 1, redeem five times at time 10, then redeem once
backdated to time 2.  The final redemption passes the historical-balance
check (the balance at time 2 was 5) yet drives the cached balance to -1. -/
def backdatedOps : List Op :=
  [Op.addCust "Ana" none,
   Op.topUp 1 5 27000 "5 Portions" 1,
   Op.redeem 1 10 "Lunch", Op.redeem 1 10 "Lunch", Op.redeem 1 10 "Lunch",
   Op.redeem 1 10 "Lunch", Op.redeem 1 10 "Lunch",
   Op.redeem 1 2 "Lunch"]

/-- The store produced by `backdatedOps`: the cached balance is -1. -/
def dbNeg : DB :=
  ⟨[⟨1, "Ana", none, -1⟩],
   [⟨1, 1, 5, 135000, "Top Up: 5 Portions", 1, none⟩,
    ⟨2, 1, -1, 0, "Redemption", 10, some "Lunch"⟩,
    ⟨3, 1, -1, 0, "Redemption", 10, some "Lunch"⟩,
    ⟨4, 1, -1, 0, "Redemption", 10, some "Lunch"⟩,
    ⟨5, 1, -1, 0, "Redemption", 10, some "Lunch"⟩,
    ⟨6, 1, -1, 0, "Redemption", 10, some "Lunch"⟩,
    ⟨7, 1, -1, 0, "Redemption", 2, some "Lunch"⟩],
   2, 8⟩

/-- C2 counterexample: a concrete sequence of operations, each accepted by
the engine (`run` fails unless every step is accepted), that leaves a
customer's cached `quota_balance` strictly negative: a redemption backdated
to time 2 is validated against the historical balance at that time (5 > 0)
even though the live balance is already 0. -/
theorem nonneg_counterexample :
    run initDB backdatedOps = some dbNeg ∧
      ∃ c ∈ dbNeg.customers, c.quota_balance < 0 := by decide

/-- C2 amended: no sequence of accepted operations in which every redemption
is effective-dated no earlier than all existing entries of its customer ever
leaves a cached `quota_balance` strictly negative.  (A redemption backdated
behind an existing entry can; see the counterexample.) -/
theorem nonneg_balances (db : DB) (h : ReachableChrono db) :
    ∀ c ∈ db.customers, 0 ≤ c.quota_balance :=
  reachableChrono_nonneg db h

theorem nonneg_balances_witness : 0 ≤ custW.quota_balance :=
  nonneg_balances dbW
    (@ReachableChrono.step dbW0 dbW (Op.topUp 1 5 27000 "5 Portions" 1)
      (@ReachableChrono.step initDB dbW0 (Op.addCust "Ana" none)
        ReachableChrono.init trivial (by decide))
      trivial (by decide))
    custW (by decide)

end PianYi

namespace PianYi

/-! ## C3, C5: amend and reverse -/

theorem customer_update_self (c : Customer) (d : Int) (h : d = 0) :
    ({ c with quota_balance := c.quota_balance + d }) = c := by
  cases c with
  | mk i n p bal => simp [h]

/-- C3: amending an entry from change `a := tx.change_amount` to `b` is
rejected with no store mutation when the owning customer's live balance plus
`b - a` is negative, and otherwise rewrites exactly that entry and moves the
customer's cached balance by exactly `b - a`, whatever the new note, payment,
timestamp and meal type are. -/
theorem amend_delta (db : DB) (tx : Txn) (c : Customer) (b pay : Int)
    (note : String) (ts : Int) (meal : Option String)
    (hndC : (db.customers.map (fun x => x.id)).Nodup)
    (hndT : (db.transactions.map (fun t => t.id)).Nodup)
    (htx : tx ∈ db.transactions) (hc : c ∈ db.customers)
    (hcid : c.id = tx.customer_id) :
    (c.quota_balance + (b - tx.change_amount) < 0 →
      edit_dialog db tx b pay note ts meal = none) ∧
    (0 ≤ c.quota_balance + (b - tx.change_amount) →
      ∃ db', edit_dialog db tx b pay note ts meal = some db' ∧
        db'.customers.find? (fun x => x.id == c.id)
          = some { c with quota_balance :=
              c.quota_balance + (b - tx.change_amount) } ∧
        db'.transactions.find? (fun t => t.id == tx.id)
          = some { tx with change_amount := b, payment_amount := pay,
                           note := note, timestamp := ts, meal_type := meal }) := by
  have hfc : db.customers.find? (fun x => x.id == tx.customer_id) = some c := by
    rw [← hcid]
    exact find?_key_unique (fun x => x.id) db.customers c hndC hc
  constructor
  · intro hneg
    unfold edit_dialog
    rw [hfc]
    exact if_pos hneg
  · intro hpos
    have heq : edit_dialog db tx b pay note ts meal
        = some (edit_transaction db tx.id tx.customer_id tx.change_amount
                  b pay note ts meal) := by
      unfold edit_dialog
      rw [hfc]
      exact if_neg (by omega)
    refine ⟨_, heq, ?_, ?_⟩
    · have hcs : (edit_transaction db tx.id tx.customer_id tx.change_amount
            b pay note ts meal).customers
          = if b - tx.change_amount == 0 then db.customers
            else db.customers.map (fun x =>
              if x.id == tx.customer_id then
                { x with quota_balance :=
                    x.quota_balance + (b - tx.change_amount) }
              else x) := rfl
      rw [hcs]
      by_cases hd0 : b - tx.change_amount = 0
      · rw [if_pos (beq_iff_eq.mpr hd0), customer_update_self c _ hd0]
        exact find?_key_unique (fun x => x.id) db.customers c hndC hc
      · rw [if_neg (by simpa using hd0)]
        have hnd' : ((db.customers.map (fun x =>
            if x.id == tx.customer_id then
              { x with quota_balance := x.quota_balance + (b - tx.change_amount) }
            else x)).map (fun x => x.id)).Nodup := by
          rw [map_key_of_preserve _ _ _
            (fun x => by by_cases hx : x.id = tx.customer_id <;> simp [hx])]
          exact hndC
        have hmm := List.mem_map_of_mem (fun x =>
            if x.id == tx.customer_id then
              { x with quota_balance := x.quota_balance + (b - tx.change_amount) }
            else x) hc
        have hval : (if c.id == tx.customer_id then
            { c with quota_balance := c.quota_balance + (b - tx.change_amount) }
          else c)
            = { c with quota_balance := c.quota_balance + (b - tx.change_amount) } := by
          rw [show (c.id == tx.customer_id) = true from beq_iff_eq.mpr hcid, if_pos rfl]
        have hfind := find?_key_unique (fun x => x.id) _ _ hnd' hmm
        simp only at hfind
        rw [hval] at hfind
        exact hfind
    · have hts : (edit_transaction db tx.id tx.customer_id tx.change_amount
            b pay note ts meal).transactions
          = db.transactions.map (fun t =>
              if t.id == tx.id then
                { t with change_amount := b, payment_amount := pay,
                         note := note, timestamp := ts, meal_type := meal }
              else t) := rfl
      rw [hts]
      have hnd' : ((db.transactions.map (fun t =>
          if t.id == tx.id then
            { t with change_amount := b, payment_amount := pay,
                     note := note, timestamp := ts, meal_type := meal }
          else t)).map (fun t => t.id)).Nodup := by
        rw [map_key_of_preserve _ _ _
          (fun t => by by_cases hx : t.id = tx.id <;> simp [hx])]
        exact hndT
      have hmm := List.mem_map_of_mem (fun t =>
          if t.id == tx.id then
            { t with change_amount := b, payment_amount := pay,
                     note := note, timestamp := ts, meal_type := meal }
          else t) htx
      have hval : (if tx.id == tx.id then
          { tx with change_amount := b, payment_amount := pay,
                    note := note, timestamp := ts, meal_type := meal }
        else tx)
          = { tx with change_amount := b, payment_amount := pay,
                      note := note, timestamp := ts, meal_type := meal } := by
        rw [beq_self_eq_true, if_pos rfl]
      have hfind := find?_key_unique (fun t => t.id) _ _ hnd' hmm
      simp only at hfind
      rw [hval] at hfind
      exact hfind

end PianYi

namespace PianYi

/-- C4: a redemption at effective timestamp `ts` is rejected with no store
mutation when the sum of `change_amount` over the customer's entries with
timestamp at most `ts` is not strictly positive, and otherwise accepted,
appending exactly one entry with `change_amount = -1` and
`payment_amount = 0`. -/
theorem redeem_spec (db : DB) (cid : Nat) (ts : Int) (meal : String)
    (hex : custExists db cid = true) :
    (((db.transactions.filter
          (fun t => t.customer_id == cid && decide (t.timestamp ≤ ts))).map
        (fun t => t.change_amount)).sum ≤ 0 →
      redeem_meal db cid ts meal = none) ∧
    (0 < ((db.transactions.filter
          (fun t => t.customer_id == cid && decide (t.timestamp ≤ ts))).map
        (fun t => t.change_amount)).sum →
      ∃ db', redeem_meal db cid ts meal = some db' ∧
        db'.transactions = db.transactions ++
          [⟨db.next_transaction_id, cid, -1, 0, "Redemption", ts, some meal⟩]) := by
  have hb := get_balance_eq_sum db cid ts
  constructor
  · intro hle
    unfold redeem_meal
    rw [if_neg (by omega)]
  · intro hgt
    unfold redeem_meal
    rw [if_pos (by omega)]
    unfold update_quota
    rw [if_pos hex]
    exact ⟨_, rfl, rfl⟩

/-- C5: deleting an entry whose positive `change_amount` exceeds the
customer's current balance is rejected with no mutation; otherwise the entry
is removed and the customer's cached balance moves by exactly minus the
entry's `change_amount`. -/
theorem reverse_delta (db : DB) (tx : Txn) (c : Customer)
    (hndC : (db.customers.map (fun x => x.id)).Nodup)
    (_htx : tx ∈ db.transactions) (hc : c ∈ db.customers)
    (hcid : c.id = tx.customer_id) :
    (0 < tx.change_amount ∧ c.quota_balance - tx.change_amount < 0 →
      delete_dialog db tx = none) ∧
    (¬(0 < tx.change_amount ∧ c.quota_balance - tx.change_amount < 0) →
      ∃ db', delete_dialog db tx = some db' ∧
        db'.customers.find? (fun x => x.id == c.id)
          = some { c with quota_balance := c.quota_balance - tx.change_amount } ∧
        db'.transactions = db.transactions.filter (fun t => !(t.id == tx.id))) := by
  have hfc : db.customers.find? (fun x => x.id == tx.customer_id) = some c := by
    rw [← hcid]
    exact find?_key_unique (fun x => x.id) db.customers c hndC hc
  have hdel : (delete_transaction db tx.id tx.customer_id
        tx.change_amount).customers.find? (fun x => x.id == c.id)
      = some { c with quota_balance := c.quota_balance - tx.change_amount } := by
    have hcs : (delete_transaction db tx.id tx.customer_id
          tx.change_amount).customers
        = db.customers.map (fun x =>
            if x.id == tx.customer_id then
              { x with quota_balance := x.quota_balance - tx.change_amount }
            else x) := rfl
    rw [hcs]
    have hnd' : ((db.customers.map (fun x =>
        if x.id == tx.customer_id then
          { x with quota_balance := x.quota_balance - tx.change_amount }
        else x)).map (fun x => x.id)).Nodup := by
      rw [map_key_of_preserve _ _ _
        (fun x => by by_cases hx : x.id = tx.customer_id <;> simp [hx])]
      exact hndC
    have hmm := List.mem_map_of_mem (fun x =>
        if x.id == tx.customer_id then
          { x with quota_balance := x.quota_balance - tx.change_amount }
        else x) hc
    have hval : (if c.id == tx.customer_id then
        { c with quota_balance := c.quota_balance - tx.change_amount }
      else c)
        = { c with quota_balance := c.quota_balance - tx.change_amount } := by
      rw [show (c.id == tx.customer_id) = true from beq_iff_eq.mpr hcid, if_pos rfl]
    have hfind := find?_key_unique (fun x => x.id) _ _ hnd' hmm
    simp only at hfind
    rw [hval] at hfind
    exact hfind
  constructor
  · rintro ⟨hpos, hneg⟩
    unfold delete_dialog
    rw [if_pos hpos, hfc]
    exact if_pos hneg
  · intro hnot
    unfold delete_dialog
    by_cases hpos : 0 < tx.change_amount
    · rw [if_pos hpos, hfc]
      have hnn : ¬(c.quota_balance - tx.change_amount < 0) :=
        fun hx => hnot ⟨hpos, hx⟩
      exact ⟨_, if_neg hnn, hdel, rfl⟩
    · rw [if_neg hpos]
      exact ⟨_, rfl, hdel, rfl⟩

/-- C6: `get_balance_at_timestamp` returns the sum of `change_amount` over
the customer's entries with effective timestamp at most the given one, and
`0` when the customer has no such entry. -/
theorem get_balance_spec (db : DB) (cid : Nat) (ts : Int) :
    get_balance_at_timestamp db cid ts
      = ((db.transactions.filter
            (fun t => t.customer_id == cid && decide (t.timestamp ≤ ts))).map
          (fun t => t.change_amount)).sum ∧
    ((∀ t ∈ db.transactions, ¬(t.customer_id = cid ∧ t.timestamp ≤ ts)) →
      get_balance_at_timestamp db cid ts = 0) := by
  refine ⟨get_balance_eq_sum db cid ts, ?_⟩
  intro h
  rw [get_balance_eq_sum]
  have hnil : db.transactions.filter
      (fun t => t.customer_id == cid && decide (t.timestamp ≤ ts)) = [] := by
    rw [List.filter_eq_nil_iff]
    intro t ht
    have ht' := h t ht
    simp only [Bool.and_eq_true, beq_iff_eq, decide_eq_true_eq]
    intro hcon
    exact ht' ⟨hcon.1, hcon.2⟩
  rw [hnil]
  rfl

end PianYi

namespace PianYi

/-! ## C7: referential failures -/

/-- C7 counterexample: `delete_transaction` called with transaction id 99,
which matches no row of the store, deletes nothing yet still subtracts the
passed `original_change` from customer 1's cached balance (5 becomes 0) —
a committed partial mutation. -/
theorem referential_counterexample :
    dbW.transactions.all (fun t => !(t.id == 99)) = true ∧
    (delete_transaction dbW 99 1 5).transactions = dbW.transactions ∧
    dbW.customers = [⟨1, "Ana", none, 5⟩] ∧
    (delete_transaction dbW 99 1 5).customers = [⟨1, "Ana", none, 0⟩] := by
  decide

theorem mem_map_of_fixed {α : Type} (l : List α) (f : α → α) (x : α)
    (hx : x ∈ l) (hfix : f x = x) : x ∈ l.map f := by
  have hmm := List.mem_map_of_mem f hx
  rwa [hfix] at hmm

/-- C7 amended: an operation given a customer id absent from the store
performs no mutation (`update_quota` is rejected by the foreign key;
`update_customer` and `delete_customer` match no rows), but
`edit_transaction` and `delete_transaction` given a transaction id absent
from the store, while leaving the transaction table unchanged, still apply
their balance delta to the named customer (see the counterexample). -/
theorem referential_no_mutation (db : DB) (cid tid cid2 : Nat)
    (change pay old nc npay orig : Int) (name note note2 : String)
    (phone : Option String) (ts ts2 : Int) (meal meal2 : Option String)
    (hmiss : ∀ c ∈ db.customers, c.id ≠ cid)
    (hfk : ∀ t ∈ db.transactions, t.customer_id ≠ cid)
    (htid : ∀ t ∈ db.transactions, t.id ≠ tid) :
    update_quota db cid change pay note ts meal = none ∧
    update_customer db cid name phone = db ∧
    delete_customer db cid = db ∧
    (delete_transaction db tid cid2 orig).transactions = db.transactions ∧
    (edit_transaction db tid cid2 old nc npay note2 ts2 meal2).transactions
      = db.transactions := by
  have hex : custExists db cid = false := by
    rw [custExists, List.any_eq_false]
    intro c hc
    simpa using hmiss c hc
  refine ⟨?_, ?_, ?_, ?_, ?_⟩
  · unfold update_quota
    rw [hex]
    simp
  · have hm : db.customers.map (fun c =>
        if c.id == cid then { c with name := name, phone := phone } else c)
        = db.customers := by
      refine map_eq_self_of_eq _ _ fun c hc => ?_
      rw [show (c.id == cid) = false from beq_eq_false_iff_ne.mpr (hmiss c hc)]
      simp
    unfold update_customer
    rw [hm]
  · have hm1 : db.transactions.filter (fun t => !(t.customer_id == cid))
        = db.transactions := by
      refine List.filter_eq_self.mpr fun t ht => ?_
      rw [show (t.customer_id == cid) = false from
        beq_eq_false_iff_ne.mpr (hfk t ht)]
      rfl
    have hm2 : db.customers.filter (fun c => !(c.id == cid)) = db.customers := by
      refine List.filter_eq_self.mpr fun c hc => ?_
      rw [show (c.id == cid) = false from beq_eq_false_iff_ne.mpr (hmiss c hc)]
      rfl
    unfold delete_customer
    rw [hm1, hm2]
  · show db.transactions.filter (fun t => !(t.id == tid)) = db.transactions
    refine List.filter_eq_self.mpr fun t ht => ?_
    rw [show (t.id == tid) = false from beq_eq_false_iff_ne.mpr (htid t ht)]
    rfl
  · show db.transactions.map (fun t =>
        if t.id == tid then
          { t with change_amount := nc, payment_amount := npay,
                   note := note2, timestamp := ts2, meal_type := meal2 }
        else t) = db.transactions
    refine map_eq_self_of_eq _ _ fun t ht => ?_
    rw [show (t.id == tid) = false from beq_eq_false_iff_ne.mpr (htid t ht)]
    simp

theorem referential_no_mutation_witness :
    update_quota dbW 7 3 0 "n" 4 none = none ∧
    update_customer dbW 7 "B" none = dbW ∧
    delete_customer dbW 7 = dbW ∧
    (delete_transaction dbW 99 1 2).transactions = dbW.transactions ∧
    (edit_transaction dbW 99 1 5 4 0 "m" 6 none).transactions
      = dbW.transactions :=
  referential_no_mutation dbW 7 99 1 3 0 5 4 0 2 "B" "n" "m" none 4 6 none none
    (by decide) (by decide) (by decide)

/-! ## C8: refund -/

/-- C8: for a submitted refund of `p` portions and `a` monetary units for a
customer whose balance is at least `p`: both zero is rejected with no
mutation; otherwise exactly one entry with `change_amount = -p`,
`payment_amount = -a` is appended and the customer's cached balance drops by
exactly `p`. -/
theorem refund_spec (db : DB) (c : Customer) (p a : Nat) (reason : String)
    (ts : Int)
    (hndC : (db.customers.map (fun x => x.id)).Nodup)
    (hc : c ∈ db.customers)
    (hbal : (p : Int) ≤ c.quota_balance) :
    (p = 0 ∧ a = 0 → apply_op db (.refund c.id p a reason ts) = none) ∧
    (¬(p = 0 ∧ a = 0) →
      ∃ db', apply_op db (.refund c.id p a reason ts) = some db' ∧
        db'.transactions = db.transactions ++
          [⟨db.next_transaction_id, c.id, -(p : Int), -(a : Int),
            "Refund: " ++ reason, ts, none⟩] ∧
        db'.customers.find? (fun x => x.id == c.id)
          = some { c with quota_balance := c.quota_balance - (p : Int) }) := by
  have hfc : db.customers.find? (fun x => x.id == c.id) = some c :=
    find?_key_unique (fun x => x.id) db.customers c hndC hc
  have happ : apply_op db (.refund c.id p a reason ts)
      = refund_submit db c p a reason ts := by
    simp only [apply_op]
    rw [hfc]
  constructor
  · rintro ⟨rfl, rfl⟩
    rw [happ]
    unfold refund_submit
    rw [if_pos ⟨le_refl 0, le_refl 0⟩]
  · intro hne
    rw [happ]
    unfold refund_submit
    rw [if_neg (by omega), if_neg (by omega)]
    unfold update_quota
    have hex : custExists db c.id = true :=
      List.any_eq_true.mpr ⟨c, hc, beq_self_eq_true _⟩
    rw [if_pos hex]
    refine ⟨_, rfl, rfl, ?_⟩
    have hnd' : ((db.customers.map (fun x =>
        if x.id == c.id then
          { x with quota_balance := x.quota_balance + -(p : Int) }
        else x)).map (fun x => x.id)).Nodup := by
      rw [map_key_of_preserve _ _ _
        (fun x => by by_cases hx : x.id = c.id <;> simp [hx])]
      exact hndC
    have hmm := List.mem_map_of_mem (fun x =>
        if x.id == c.id then
          { x with quota_balance := x.quota_balance + -(p : Int) }
        else x) hc
    have hval : (if c.id == c.id then
        { c with quota_balance := c.quota_balance + -(p : Int) }
      else c)
        = { c with quota_balance := c.quota_balance - (p : Int) } := by
      rw [beq_self_eq_true, if_pos rfl, ← sub_eq_add_neg]
    have hfind := find?_key_unique (fun x => x.id) _ _ hnd' hmm
    simp only at hfind
    rw [hval] at hfind
    exact hfind

theorem refund_spec_witness :
    ∃ db', apply_op dbW (.refund custW.id 2 20000 "overpaid" 2) = some db' ∧
      db'.transactions = dbW.transactions ++
        [⟨dbW.next_transaction_id, custW.id, -((2 : Nat) : Int),
          -((20000 : Nat) : Int), "Refund: " ++ "overpaid", 2, none⟩] ∧
      db'.customers.find? (fun x => x.id == custW.id)
        = some { custW with quota_balance :=
            custW.quota_balance - ((2 : Nat) : Int) } :=
  (refund_spec dbW custW 2 20000 "overpaid" 2 (by decide) (by decide)
    (by decide)).2 (by decide)

/-! ## C9: undo -/

/-- C9: the undo handler appends a fresh compensating entry with
`change_amount = 1` and `payment_amount = 0`; every pre-existing entry
(including the redemption being undone) is still present untouched. -/
theorem undo_spec (db : DB) (cid : Nat) (ts : Int)
    (hex : custExists db cid = true) :
    ∃ db', apply_op db (.undo cid ts) = some db' ∧
      db'.transactions = db.transactions ++
        [⟨db.next_transaction_id, cid, 1, 0, "Undo Redemption", ts, none⟩] ∧
      ∀ t ∈ db.transactions, t ∈ db'.transactions := by
  simp only [apply_op]
  unfold undo_last_redemption update_quota
  rw [if_pos hex]
  refine ⟨_, rfl, rfl, ?_⟩
  intro t ht
  exact List.mem_append_left _ ht

theorem undo_spec_witness :
    ∃ db', apply_op dbW (.undo 1 3) = some db' ∧
      db'.transactions = dbW.transactions ++
        [⟨dbW.next_transaction_id, 1, 1, 0, "Undo Redemption", 3, none⟩] ∧
      ∀ t ∈ dbW.transactions, t ∈ db'.transactions :=
  undo_spec dbW 1 3 (by decide)

end PianYi

namespace PianYi

/-! ## C10: frame of single-row operations -/

/-- C10: `update_quota`, `edit_transaction` and `delete_transaction` leave
every customer other than the targeted one, and every pre-existing
transaction entry other than the targeted one, exactly as they were. -/
theorem frame_other_rows (db : DB) (cid tid : Nat)
    (change pay old nc npay orig : Int) (note note2 : String) (ts ts2 : Int)
    (meal meal2 : Option String) :
    (∀ db', update_quota db cid change pay note ts meal = some db' →
      (∀ c ∈ db.customers, c.id ≠ cid → c ∈ db'.customers) ∧
      (∀ t ∈ db.transactions, t ∈ db'.transactions)) ∧
    ((∀ c ∈ db.customers, c.id ≠ cid →
        c ∈ (edit_transaction db tid cid old nc npay note2 ts2 meal2).customers) ∧
      (∀ t ∈ db.transactions, t.id ≠ tid →
        t ∈ (edit_transaction db tid cid old nc npay note2 ts2 meal2).transactions)) ∧
    ((∀ c ∈ db.customers, c.id ≠ cid →
        c ∈ (delete_transaction db tid cid orig).customers) ∧
      (∀ t ∈ db.transactions, t.id ≠ tid →
        t ∈ (delete_transaction db tid cid orig).transactions)) := by
  refine ⟨?_, ⟨?_, ?_⟩, ⟨?_, ?_⟩⟩
  · intro db' h
    obtain ⟨hcs, hts, -⟩ := update_quota_dest db cid change pay note ts meal db' h
    constructor
    · intro c hc hne
      rw [hcs]
      refine mem_map_of_fixed _ _ c hc ?_
      show (if c.id == cid then
        { c with quota_balance := c.quota_balance + change } else c) = c
      rw [show (c.id == cid) = false from beq_eq_false_iff_ne.mpr hne]
      simp
    · intro t ht
      rw [hts]
      exact List.mem_append_left _ ht
  · intro c hc hne
    have hcs : (edit_transaction db tid cid old nc npay note2 ts2 meal2).customers
        = if nc - old == 0 then db.customers
          else db.customers.map (fun x =>
            if x.id == cid then
              { x with quota_balance := x.quota_balance + (nc - old) }
            else x) := rfl
    rw [hcs]
    by_cases hd0 : nc - old = 0
    · rw [if_pos (beq_iff_eq.mpr hd0)]
      exact hc
    · rw [if_neg (by simpa using hd0)]
      refine mem_map_of_fixed _ _ c hc ?_
      show (if c.id == cid then
        { c with quota_balance := c.quota_balance + (nc - old) } else c) = c
      rw [show (c.id == cid) = false from beq_eq_false_iff_ne.mpr hne]
      simp
  · intro t ht hne
    show t ∈ db.transactions.map (fun x =>
      if x.id == tid then
        { x with change_amount := nc, payment_amount := npay,
                 note := note2, timestamp := ts2, meal_type := meal2 }
      else x)
    refine mem_map_of_fixed _ _ t ht ?_
    show (if t.id == tid then
      { t with change_amount := nc, payment_amount := npay,
               note := note2, timestamp := ts2, meal_type := meal2 }
      else t) = t
    rw [show (t.id == tid) = false from beq_eq_false_iff_ne.mpr hne]
    simp
  · intro c hc hne
    show c ∈ db.customers.map (fun x =>
      if x.id == cid then
        { x with quota_balance := x.quota_balance - orig }
      else x)
    refine mem_map_of_fixed _ _ c hc ?_
    show (if c.id == cid then
      { c with quota_balance := c.quota_balance - orig } else c) = c
    rw [show (c.id == cid) = false from beq_eq_false_iff_ne.mpr hne]
    simp
  · intro t ht hne
    show t ∈ db.transactions.filter (fun x => !(x.id == tid))
    refine List.mem_filter.mpr ⟨ht, ?_⟩
    rw [show (t.id == tid) = false from beq_eq_false_iff_ne.mpr hne]
    rfl

theorem frame_other_rows_witness :
    txW ∈ (edit_transaction dbW 99 1 5 4 0 "m" 6 none).transactions :=
  ((frame_other_rows dbW 1 99 3 0 5 4 0 2 "n" "m" 4 6 none none).2.1).2
    txW (by decide) (by decide)

/-! ## Remaining witnesses -/

theorem amend_delta_witness :
    ∃ db', edit_dialog dbW txW 3 81000 "fix" 1 none = some db' ∧
      db'.customers.find? (fun x => x.id == custW.id)
        = some { custW with quota_balance :=
            custW.quota_balance + (3 - txW.change_amount) } ∧
      db'.transactions.find? (fun t => t.id == txW.id)
        = some { txW with change_amount := 3, payment_amount := 81000,
                          note := "fix", timestamp := 1, meal_type := none } :=
  (amend_delta dbW txW custW 3 81000 "fix" 1 none (by decide) (by decide)
    (by decide) (by decide) (by decide)).2 (by decide)

theorem redeem_spec_witness :
    ∃ db', redeem_meal dbW 1 5 "Lunch" = some db' ∧
      db'.transactions = dbW.transactions ++
        [⟨dbW.next_transaction_id, 1, -1, 0, "Redemption", 5, some "Lunch"⟩] :=
  (redeem_spec dbW 1 5 "Lunch" (by decide)).2 (by decide)

theorem reverse_delta_witness :
    ∃ db', delete_dialog dbW txW = some db' ∧
      db'.customers.find? (fun x => x.id == custW.id)
        = some { custW with quota_balance :=
            custW.quota_balance - txW.change_amount } ∧
      db'.transactions = dbW.transactions.filter (fun t => !(t.id == txW.id)) :=
  (reverse_delta dbW txW custW (by decide) (by decide) (by decide)
    (by decide)).2 (by decide)

theorem get_balance_spec_witness : get_balance_at_timestamp dbW 1 0 = 0 :=
  (get_balance_spec dbW 1 0).2 (by decide)

end PianYi
